import Mathlib

/-!
Verification of the email triage engine in `email_processor.py`
(class `CLISupportSystem`).

Text is modelled as `List Char`.  The two external capabilities that the
spec treats as injected — the VADER sentiment scorer and the wall clock —
are modelled as parameters: a `polarity : List Char → ℚ` function standing
for `SentimentIntensityAnalyzer.polarity_scores(text)['compound']`, and an
`ageHours : ℚ` field on each email standing for
`(datetime.now() - email['sent_date']).total_seconds() / 3600`.

Python runtime errors that the source code can raise (indexing a `str`
with a string key, which raises `TypeError`) are modelled with `Except`.
-/

/-- Word character for the regex `\b` boundary: `[A-Za-z0-9_]`. -/
def isWordChar (c : Char) : Bool :=
  c.isAlpha || c.isDigit || c = '_'

/-- Python whitespace stripped by `str.strip()`. -/
def isPyWS (c : Char) : Bool :=
  c = ' ' || c = '\t' || c = '\n' || c = '\r' || c = '\x0b' || c = '\x0c'

/-- Model of Python `str.lower()` (ASCII case folding). -/
def pyLower (cs : List Char) : List Char :=
  cs.map Char.toLower

/-- Model of Python `str.strip()`: drop whitespace from both ends. -/
def stripWS (cs : List Char) : List Char :=
  ((cs.dropWhile isPyWS).reverse.dropWhile isPyWS).reverse

/-- Whether `pre` is a prefix of `cs` (decidable, elementwise). -/
def startsWithL : List Char → List Char → Bool
  | [], _ => true
  | _ :: _, [] => false
  | a :: as, b :: bs => a = b && startsWithL as bs

/-- Model of Python `needle in hay` on strings: substring containment. -/
def hasSub (needle : List Char) : List Char → Bool
  | [] => startsWithL needle []
  | c :: rest => startsWithL needle (c :: rest) || hasSub needle rest

/-- Model of `re.split(r'[.!?]', text)`: split at every terminator,
keeping empty pieces, as Python does. -/
def splitTerm : List Char → List (List Char)
  | [] => [[]]
  | c :: rest =>
    if c = '.' || c = '!' || c = '?' then
      [] :: splitTerm rest
    else
      match splitTerm rest with
      | [] => [[c]]
      | s :: ss => (c :: s) :: ss

/-- Split a text into lines at every newline character. -/
def splitNl : List Char → List (List Char)
  | [] => [[]]
  | c :: rest =>
    if c = '\n' then
      [] :: splitNl rest
    else
      match splitNl rest with
      | [] => [[c]]
      | s :: ss => (c :: s) :: ss

/-- Rejoin lines with newline characters (inverse of `splitNl`). -/
def joinNl : List (List Char) → List Char
  | [] => []
  | [l] => l
  | l :: ls => l ++ '\n' :: joinNl ls

/-- Indentation characters considered by `textwrap.dedent`. -/
def isIndentChar (c : Char) : Bool :=
  c = ' ' || c = '\t'

/-- Longest common prefix of two character lists. -/
def commonPfx : List Char → List Char → List Char
  | [], _ => []
  | _, [] => []
  | a :: as, b :: bs => if a = b then a :: commonPfx as bs else []

/-- Leading indentation (spaces and tabs) of a line. -/
def leadWS (l : List Char) : List Char :=
  l.takeWhile isIndentChar

/-- Step one of `textwrap.dedent`: lines consisting solely of spaces and
tabs are normalized to empty lines. -/
def dedentNormLine (l : List Char) : List Char :=
  if l ≠ [] && l.all isIndentChar then [] else l

/-- Common margin of `textwrap.dedent`: the longest common leading
whitespace of all lines that contain a non-whitespace character. -/
def dedentMargin (lines : List (List Char)) : List Char :=
  match (lines.filter (fun l => !(l.all isIndentChar))).map leadWS with
  | [] => []
  | m :: ms => ms.foldl commonPfx m

/-- Model of `textwrap.dedent`: normalize whitespace-only lines, compute
the common margin, and (when the margin is non-empty) remove it from the
start of every line that carries it. -/
def pyDedent (cs : List Char) : List Char :=
  let lines := (splitNl cs).map dedentNormLine
  let margin := dedentMargin lines
  if margin = [] then
    joinNl lines
  else
    joinNl (lines.map (fun l =>
      if startsWithL margin l then l.drop margin.length else l))

/-- Regex `\b`: holds between `prev` and `next` when exactly one side is a
word character (a missing side counts as non-word). -/
def atBoundary (prev next : Option Char) : Bool :=
  (match prev with | none => false | some c => isWordChar c) ≠
  (match next with | none => false | some c => isWordChar c)

/-! ### The email-address regex of `extract_information`

Source, line 119: `\b[A-Za-z0-9._%+-]+@[A-Za-z0-9.-]+\.[A-Z|a-z]{2,}\b`,
used with `re.findall` (leftmost, non-overlapping, greedy with
backtracking).  The scanner below follows that semantics: at each text
position it attempts an anchored match; the greedy `[A-Za-z0-9.-]+`
before the literal dot backtracks to the rightmost viable dot, and the
greedy `{2,}` backtracks to the longest letter run whose end lands on a
word boundary. -/

/-- Character class `[A-Za-z0-9._%+-]` (local part of the address). -/
def isLocalChar (c : Char) : Bool :=
  c.isAlpha || c.isDigit || c = '.' || c = '_' || c = '%' || c = '+' || c = '-'

/-- Character class `[A-Za-z0-9.-]` (domain run before the final dot). -/
def isDomainChar (c : Char) : Bool :=
  c.isAlpha || c.isDigit || c = '.' || c = '-'

/-- Character class `[A-Z|a-z]` (top-level-domain run; the source pattern
literally includes `|` inside the class). -/
def isTldChar (c : Char) : Bool :=
  c.isAlpha || c = '|'

/-- Greedy `[A-Z|a-z]{2,}\b` after the final dot: the longest
`k ∈ [2, run.length]` such that a word boundary follows the `k`-th TLD
character, where `run` is the maximal TLD-character run of `cs`.
Returns the number of characters consumed. -/
def matchTld (cs : List Char) : Option Nat :=
  let run := cs.takeWhile isTldChar
  let rest := cs.dropWhile isTldChar
  (List.range run.length).reverse.findSome? (fun j =>
    -- candidate TLD length k = j + 1, largest first
    let k := j + 1
    if k < 2 then none
    else
      let next : Option Char := if k < run.length then run.getD k ' ' else rest.head?
      if atBoundary (run.getD (k - 1) ' ') next then some k else none)

/-- Greedy `[A-Za-z0-9.-]+\.[A-Z|a-z]{2,}\b`: take the maximal
domain-character run, then backtrack over dot positions from the right;
at each dot require a TLD match after it.  Returns characters consumed. -/
def matchDomainTld (cs : List Char) : Option Nat :=
  let run := cs.takeWhile isDomainChar
  let rest := cs.dropWhile isDomainChar
  (List.range run.length).reverse.findSome? (fun j =>
    if h : j < run.length then
      if 1 ≤ j ∧ run.get ⟨j, h⟩ = '.' then
        match matchTld (run.drop (j + 1) ++ rest) with
        | some k => some (j + 1 + k)
        | none => none
      else none
    else none)

/-- Anchored attempt of the full email pattern at the current position
(`prev` is the character just before it).  On success returns the matched
characters and the remainder of the text. -/
def matchEmailAt (prev : Option Char) (cs : List Char) : Option (List Char × List Char) :=
  let loc := cs.takeWhile isLocalChar
  let rest1 := cs.dropWhile isLocalChar
  if loc = [] then none
  else if !atBoundary prev (cs.head?) then none
  else
    match rest1 with
    | [] => none
    | a :: rest2 =>
      if a ≠ '@' then none
      else
        match matchDomainTld rest2 with
        | some k => some (loc ++ '@' :: rest2.take k, rest2.drop k)
        | none => none

/-! ### The phone-number regex of `extract_information`

Source, line 115: `\b\d{3}[-.]?\d{3}[-.]?\d{4}\b` with `re.findall`.
Each greedy `[-.]?` first tries to consume a separator and falls back to
the empty alternative, so the four separator combinations are attempted
in the order (yes,yes), (yes,no), (no,yes), (no,no). -/

/-- Take exactly `n` decimal digits from the front of `cs`. -/
def takeDigits : Nat → List Char → Option (List Char × List Char)
  | 0, cs => some ([], cs)
  | n + 1, [] => if n = 0 then none else none
  | n + 1, c :: cs =>
    if c.isDigit then
      match takeDigits n cs with
      | some (d, r) => some (c :: d, r)
      | none => none
    else none

/-- One separator-combination attempt of the phone pattern (without the
leading `\b`, which the caller checks). -/
def tryPhone (cs : List Char) (sep1 sep2 : Bool) : Option (List Char × List Char) :=
  match takeDigits 3 cs with
  | none => none
  | some (d1, r1) =>
    let s1 : Option (List Char × List Char) :=
      if sep1 then
        match r1 with
        | c :: t => if c = '-' || c = '.' then some ([c], t) else none
        | [] => none
      else some ([], r1)
    match s1 with
    | none => none
    | some (x1, r2) =>
      match takeDigits 3 r2 with
      | none => none
      | some (d2, r3) =>
        let s2 : Option (List Char × List Char) :=
          if sep2 then
            match r3 with
            | c :: t => if c = '-' || c = '.' then some ([c], t) else none
            | [] => none
          else some ([], r3)
        match s2 with
        | none => none
        | some (x2, r4) =>
          match takeDigits 4 r4 with
          | none => none
          | some (d3, r5) =>
            if atBoundary (d3.getD 3 '0') r5.head? then
              some (d1 ++ x1 ++ d2 ++ x2 ++ d3, r5)
            else none

/-- Anchored attempt of the phone pattern at the current position. -/
def matchPhoneAt (prev : Option Char) (cs : List Char) : Option (List Char × List Char) :=
  if !atBoundary prev cs.head? then none
  else
    match tryPhone cs true true with
    | some r => some r
    | none =>
      match tryPhone cs true false with
      | some r => some r
      | none =>
        match tryPhone cs false true with
        | some r => some r
        | none => tryPhone cs false false

/-- Generic `re.findall` scan: attempt an anchored match at every
position, left to right; on success record the match and resume after it
(non-overlapping).  `fuel` bounds the recursion; every successful match
consumes at least one character, so `fuel = text.length` suffices. -/
def scanAux (m : Option Char → List Char → Option (List Char × List Char)) :
    Nat → Option Char → List Char → List (List Char)
  | 0, _, _ => []
  | _ + 1, _, [] => []
  | fuel + 1, prev, c :: rest =>
    match m prev (c :: rest) with
    | some (mt, rem) => mt :: scanAux m fuel (some (mt.getLastD c)) rem
    | none => scanAux m fuel (some c) rest

/-- `re.findall` of the email-address pattern over a text. -/
def emailFindAll (cs : List Char) : List (List Char) :=
  scanAux matchEmailAt cs.length none cs

/-- `re.findall` of the phone-number pattern over a text. -/
def phoneFindAll (cs : List Char) : List (List Char) :=
  scanAux matchPhoneAt cs.length none cs

example : emailFindAll ("help please reach me at a@bc.de thanks".toList)
    = ["a@bc.de".toList] := by decide
example : emailFindAll ("a@bc.de x@yz.fg".toList)
    = ["a@bc.de".toList, "x@yz.fg".toList] := by decide
example : emailFindAll ("a@b.cde9".toList) = [] := by decide
example : emailFindAll ("pre a@b.co5".toList) = [] := by decide
example : emailFindAll ("-a@b.co".toList) = ["a@b.co".toList] := by decide
example : emailFindAll ("me@sub.do-main.org!".toList)
    = ["me@sub.do-main.org".toList] := by decide
example : emailFindAll ("a@@b.co".toList) = [] := by decide
example : emailFindAll ("odd a@b..cd t".toList) = ["a@b..cd".toList] := by decide
example : phoneFindAll ("call 555-123-4567.".toList) = ["555-123-4567".toList] := by decide
example : phoneFindAll ("123.456.7890 and 1234567890".toList)
    = ["123.456.7890".toList, "1234567890".toList] := by decide
example : phoneFindAll ("12345678901".toList) = [] := by decide
example : phoneFindAll ("x555-123-4567".toList) = [] := by decide
example : phoneFindAll ("555-1234567".toList) = ["555-1234567".toList] := by decide

/-! ### Data model

`Email` mirrors the dict built by `load_emails` (source lines 42-48),
with the injected clock folded into `ageHours` (the value that
`determine_priority` computes at line 100 as
`(datetime.now() - email['sent_date']).total_seconds() / 3600`). -/

structure Email where
  sender : List Char
  subject : List Char
  body : List Char
  ageHours : ℚ
deriving DecidableEq

/-- Combined text `f"{email['subject']} {email['body']}"` used throughout
the source (lines 85, 112, 139, 199). -/
def combinedText (e : Email) : List Char :=
  e.subject ++ ' ' :: e.body

/-- Python runtime errors the modelled code can raise. -/
inductive PyError where
  | typeError
deriving DecidableEq

/-- Result dict of `extract_information` (source lines 130-135). -/
structure Extracted where
  phone_numbers : List (List Char)
  alternate_emails : List (List Char)
  requirements : List (List Char)
  sentiment : String
deriving DecidableEq

/-- The priority keyword list (source lines 19-20). -/
def priority_keywords : List (List Char) :=
  ["urgent".toList, "critical".toList, "immediately".toList, "emergency".toList,
   "cannot access".toList, "blocked".toList, "down".toList, "broken".toList,
   "not working".toList]

/-- The support-filter keyword list (source line 58). -/
def support_keywords : List (List Char) :=
  ["support".toList, "query".toList, "request".toList, "help".toList,
   "assist".toList, "issue".toList, "problem".toList]

/-- The requirement-indicator keyword list (source line 124). -/
def requirement_keywords : List (List Char) :=
  ["need".toList, "want".toList, "require".toList, "looking for".toList,
   "help with".toList]

/-- The knowledge base (source lines 23-30), as an association list in
insertion order. -/
def knowledge_base : List (String × List Char) :=
  [("account_verification", "Account verification emails are sent immediately after registration. If not received, check spam folder or request a new verification link.".toList),
   ("login_issues", "Common login issues include incorrect passwords, browser cache problems, or account lockouts. Try resetting password or clearing browser cache.".toList),
   ("billing_errors", "Billing issues are handled by our finance team. Refunds typically process within 5-7 business days after approval.".toList),
   ("api_integration", "We support REST API integration with comprehensive documentation available at api.docs.example.com.".toList),
   ("subscription", "We offer Basic ($29/mo), Pro ($79/mo), and Enterprise ($199/mo) plans. All include 24/7 support and API access.".toList),
   ("password_reset", "Password reset links expire after 1 hour. If the link doesn't work, request a new one from the login page.".toList)]

/-- Python `dict.get(key, default)` on an association list. -/
def dictGet (m : List (String × List Char)) (key : String) : Option (List Char) :=
  match m.find? (fun p => p.1 = key) with
  | some p => some p.2
  | none => none

/-- Model of `analyze_sentiment` (source lines 71-81): the compound score
comes from the injected analyzer; the label is fixed by the `0.05`
thresholds.  Only the label is used by callers together with the raw
score, so the model returns the label (the score is the argument). -/
def analyze_sentiment (compound : ℚ) : String :=
  if compound ≥ mkRat 5 100 then "Positive"
  else if compound ≤ -(mkRat 5 100) then "Negative"
  else "Neutral"

/-- Model of `determine_priority` (source lines 83-108), sequential as in
the source: keyword count, then the sentiment adjustment, then the
recency bonus, then the threshold label.  `polarity` is the injected
sentiment capability; note the source analyzes the lowercased text
here. -/
def determine_priority (polarity : List Char → ℚ) (e : Email) : String × Int :=
  let text := pyLower (combinedText e)
  let u0 : Int := (priority_keywords.filter (fun k => hasSub k text)).length
  let sentiment := analyze_sentiment (polarity text)
  let u1 : Int :=
    if sentiment = "Negative" then u0 + 2
    else if sentiment = "Positive" then u0 - 1
    else u0
  let u2 : Int :=
    if e.ageHours < 1 then u1 + 3
    else if e.ageHours < 4 then u1 + 2
    else if e.ageHours < 12 then u1 + 1
    else u1
  (if u2 ≥ 3 then "Urgent" else "Not urgent", u2)

/-- Python `str.__getitem__` with a string key: always a `TypeError`
("string indices must be integers").  This is what the comprehension at
source line 132 executes, because its loop variable `email` shadows the
email dict with each matched address string. -/
def pyStrGetItem (_s : List Char) (_key : String) : Except PyError (List Char) :=
  .error .typeError

/-- The list comprehension at source line 132,
`[email for email in emails if email != email['sender']]`: for each
regex match the (shadowed) `email` is the match string, so
`email['sender']` raises `TypeError` on the first element. -/
def alternateEmailsComp : List (List Char) → Except PyError (List (List Char))
  | [] => .ok []
  | m :: rest => do
    let v ← pyStrGetItem m "sender"
    let tail ← alternateEmailsComp rest
    if m ≠ v then .ok (m :: tail) else .ok tail

/-- The requirements loop of `extract_information` (source lines
123-128): collect `sentence.strip()` for every sentence of the `[.!?]`
split whose lowercased form contains a requirement keyword. -/
def requirementsLoop : List (List Char) → List (List Char)
  | [] => []
  | s :: ss =>
    if requirement_keywords.any (fun k => hasSub k (pyLower s)) then
      stripWS s :: requirementsLoop ss
    else requirementsLoop ss

/-- Model of `extract_information` (source lines 110-135).  The result
dict's values are evaluated in source order: phones and requirements are
pure, the alternate-email comprehension can raise `TypeError`, and the
sentiment label comes from the injected analyzer on the (non-lowered)
combined text. -/
def extract_information (polarity : List Char → ℚ) (e : Email) :
    Except PyError Extracted := do
  let alternate ← alternateEmailsComp (emailFindAll (combinedText e))
  .ok ⟨phoneFindAll (combinedText e), alternate,
    (requirementsLoop (splitTerm (combinedText e))).take 3,
    analyze_sentiment (polarity (combinedText e))⟩

/-- The category taxonomy of `categorize_email` (source lines 141-146) in
dict insertion order. -/
def categoriesKW : List (String × List (List Char)) :=
  [("account_issues", ["account".toList, "verify".toList, "verification".toList,
     "login".toList, "password".toList]),
   ("billing", ["billing".toList, "payment".toList, "charge".toList,
     "refund".toList, "invoice".toList]),
   ("technical", ["api".toList, "integration".toList, "technical".toList,
     "server".toList, "system".toList]),
   ("general", ["question".toList, "query".toList, "information".toList,
     "help".toList])]

/-- Per-category scores (source lines 148-153): each keyword found as a
substring of the lowercased combined text adds one. -/
def categoryScores (text : List Char) : List (String × Nat) :=
  categoriesKW.map (fun p => (p.1, (p.2.filter (fun k => hasSub k text)).length))

/-- Python `max(..., key=lambda x: x[1])` over a nonempty list: keep the
current best unless a later item is strictly greater. -/
def pyMaxSndFrom (best : String × Nat) : List (String × Nat) → String × Nat
  | [] => best
  | x :: xs => if x.2 > best.2 then pyMaxSndFrom x xs else pyMaxSndFrom best xs

/-- Python `max(scores.items(), key=lambda x: x[1])[0]` (the empty case
cannot arise: the taxonomy has four entries). -/
def pyMaxSnd : List (String × Nat) → String
  | [] => ""
  | s :: ss => (pyMaxSndFrom s ss).1

/-- Model of `categorize_email` (source lines 137-156). -/
def categorize_email (e : Email) : String :=
  pyMaxSnd (categoryScores (pyLower (combinedText e)))

/-- Replace underscores with spaces, as `category.replace('_', ' ')` at
source line 183. -/
def underscoreToSpace (cs : List Char) : List Char :=
  cs.map (fun c => if c = '_' then ' ' else c)

/-- The generic fallback sentence of `generate_response` (source line
175). -/
def fallbackKnowledge : List Char :=
  "Our team is looking into your request and will provide assistance shortly.".toList

/-- Model of `generate_response` (source lines 158-191): pick greeting
and empathy by sentiment, look the category up in the knowledge base
with the fallback default, assemble the template, then
`textwrap.dedent(...).strip()`. -/
def generate_response (e : Email) (sentiment : String) : List Char :=
  let category := categorize_email e
  let greeting :=
    if sentiment = "Negative" then
      "Thank you for bringing this to our attention. We sincerely apologize for the inconvenience you've experienced.".toList
    else if sentiment = "Positive" then
      "Thank you for reaching out to us! We appreciate your feedback.".toList
    else
      "Thank you for contacting our support team.".toList
  let empathy :=
    if sentiment = "Negative" then
      "We understand your frustration and are committed to resolving this issue promptly.".toList
    else if sentiment = "Positive" then
      "We're glad to hear from you and are happy to assist.".toList
    else
      "We're here to help and will address your inquiry promptly.".toList
  let knowledge := (dictGet knowledge_base category).getD fallbackKnowledge
  let response :=
    '\n' :: greeting ++ '\n' :: '\n' :: empathy ++ '\n' :: '\n' ::
    "Regarding your ".toList ++ underscoreToSpace (category.toList) ++
    ": ".toList ++ knowledge ++
    "\n\nPlease don't hesitate to reach out if you need any further assistance.\n\nBest regards,\nSupport Team\n".toList
  stripWS (pyDedent response)

/-- Model of `filter_emails` (source lines 56-69): keep emails whose
lowercased subject or lowercased body contains a support keyword. -/
def isSupportEmail (e : Email) : Bool :=
  support_keywords.any (fun k => hasSub k (pyLower e.subject)) ||
  support_keywords.any (fun k => hasSub k (pyLower e.body))

/-- The filtered list returned by `filter_emails`. -/
def filter_emails (emails : List Email) : List Email :=
  emails.filter isSupportEmail

/-! ### The triage queue

`process_emails` (source lines 193-224) builds a processed-email dict per
qualifying email and pushes `(-urgency_score, email_counter, processed_email)`
onto a `heapq` heap.  The display paths (source lines 274 and 324) read the
queue back with `sorted(self.priority_queue, key=lambda x: x[0])`, a stable
sort on the first tuple component only. -/

/-- The processed-email dict (source lines 206-216). -/
structure PItem where
  sender : List Char
  subject : List Char
  body : List Char
  ageHours : ℚ
  sentiment : String
  priority : String
  urgency : Int
  category : String
  extracted : Extracted
  response : List Char
  status : String
  processingId : Nat
deriving DecidableEq

/-- A heap tuple `(-urgency_score, email_counter, processed_email)`
(source line 219). -/
structure HeapEntry where
  negScore : Int
  counter : Nat
  item : PItem
deriving DecidableEq

/-- Default item used only as the `getD` fallback in index arithmetic. -/
def dfltItem : PItem :=
  ⟨[], [], [], 0, "", "", 0, "", ⟨[], [], [], ""⟩, [], "", 0⟩

/-- Default heap entry used only as the `getD` fallback. -/
def dfltEntry : HeapEntry :=
  ⟨0, 0, dfltItem⟩

/-- Tuple comparison used by `heapq` on the pushed triples: the
`email_counter` components are distinct, so comparison never reaches the
dict and is lexicographic on `(negScore, counter)`. -/
def entryLt (a b : HeapEntry) : Bool :=
  a.negScore < b.negScore || (a.negScore = b.negScore && a.counter < b.counter)

/-- CPython `heapq._siftdown(heap, 0, pos)`: bubble the item at `pos` up
toward the root while it is strictly less than its parent.  `fuel`
bounds the recursion; the parent index is strictly smaller, so
`fuel = pos` suffices. -/
def siftdownF : Nat → List HeapEntry → Nat → HeapEntry → List HeapEntry
  | 0, h, pos, item => h.set pos item
  | fuel + 1, h, pos, item =>
    match pos with
    | 0 => h.set 0 item
    | p + 1 =>
      let parentpos := p / 2
      let parent := h.getD parentpos dfltEntry
      if entryLt item parent then
        siftdownF fuel (h.set (p + 1) parent) parentpos item
      else h.set (p + 1) item

/-- CPython `heapq.heappush`: append, then sift the new item up. -/
def heappush (h : List HeapEntry) (item : HeapEntry) : List HeapEntry :=
  siftdownF h.length (h ++ [item]) h.length item

/-! ### The ordered view

`sorted(self.priority_queue, key=lambda x: x[0])` is a stable sort on
`negScore` alone.  It is modelled decorate-sort-undecorate: pair every
heap position with its key, insertion-sort the pairs stably by key
(strictly smaller keys move left, equal keys keep list order), and read
the entries back through the resulting position list. -/

/-- Key list of a queue: the first tuple components, in heap-array
order. -/
def keyList (q : List HeapEntry) : List Int :=
  q.map (fun e => e.negScore)

/-- Pair each key with its heap-array position, starting at `n`. -/
def enumKeys (n : Nat) : List Int → List (Nat × Int)
  | [] => []
  | k :: ks => (n, k) :: enumKeys (n + 1) ks

/-- Stable insertion into a key-sorted pair list: skip over strictly
smaller keys, stop at the first key not strictly smaller (so an equal
key keeps the incoming pair behind it... in front of later ones). -/
def insP (x : Nat × Int) : List (Nat × Int) → List (Nat × Int)
  | [] => [x]
  | y :: ys => if y.2 < x.2 then y :: insP x ys else x :: y :: ys

/-- Stable insertion sort of position-key pairs by key. -/
def isortP : List (Nat × Int) → List (Nat × Int)
  | [] => []
  | x :: xs => insP x (isortP xs)

/-- Heap-array positions in display order: stable-sorted by key. -/
def orderedPositions (q : List HeapEntry) : List Nat :=
  (isortP (enumKeys 0 (keyList q))).map (fun p => p.1)

/-- Model of `sorted(self.priority_queue, key=lambda x: x[0])`: the queue
entries in display order (source lines 274 and 324). -/
def orderedView (q : List HeapEntry) : List HeapEntry :=
  (orderedPositions q).map (fun i => q.getD i dfltEntry)

/-- Error raised by out-of-range item access; the source prints
"Invalid email index." and returns without touching anything (source
lines 319-321). -/
inductive QErr where
  | outOfRange
deriving DecidableEq

/-- The item-detail lookup of `show_email_detail` (source lines 317-325):
guard `index < 1 or index > len(...)`, then 1-indexed access into the
display order.  The queue and the processed list are appended in
lockstep (source lines 219-220), so the guard length equals the queue
length. -/
def itemAt (q : List HeapEntry) (index : Int) : Except QErr HeapEntry :=
  if index < 1 ∨ index > (q.length : Int) then .error .outOfRange
  else .ok ((orderedView q).getD ((index - 1).toNat) dfltEntry)

/-- Replace the item of one heap entry in place (identity-preserving
update of the shared dict). -/
def updAt (g : PItem → PItem) : Nat → List HeapEntry → List HeapEntry
  | _, [] => []
  | 0, e :: es => { e with item := g e.item } :: es
  | n + 1, e :: es => e :: updAt g n es

/-- Mutation through the detail view: out-of-range indices change
nothing; in range, the email at display rank `index` — the dict shared
by the heap tuple — has `g` applied to it. -/
def mutateAt (g : PItem → PItem) (q : List HeapEntry) (index : Int) : List HeapEntry :=
  if index < 1 ∨ index > (q.length : Int) then q
  else updAt g ((orderedPositions q).getD ((index - 1).toNat) 0) q

/-- Option 1 of `show_email_detail` (source lines 363-365):
`email['status'] = 'Resolved'`. -/
def markResolved (q : List HeapEntry) (index : Int) : List HeapEntry :=
  mutateAt (fun it => { it with status := "Resolved" }) q index

/-- Option 2 of `show_email_detail` (source lines 366-370): the stripped
input replaces `generated_response` only when non-empty. -/
def editResponse (q : List HeapEntry) (index : Int) (r : List Char) : List HeapEntry :=
  if stripWS r = [] then q
  else mutateAt (fun it => { it with response := stripWS r }) q index

/-! ### The processing pipeline (source lines 193-224) -/

/-- System state carried by `CLISupportSystem`: the heap, the processed
list, and the monotone counter. -/
structure SysState where
  queue : List HeapEntry
  processed : List PItem
  counter : Nat
deriving DecidableEq

/-- Fresh state (source lines 32-35). -/
def initState : SysState :=
  ⟨[], [], 0⟩

/-- One loop body of `process_emails` (source lines 197-216): sentiment
on the raw combined text, priority, category, extraction (which can
raise), response, then the dict. -/
def processOne (polarity : List Char → ℚ) (e : Email) (cnt : Nat) :
    Except PyError PItem := do
  let sentiment := analyze_sentiment (polarity (combinedText e))
  let pr := determine_priority polarity e
  let category := categorize_email e
  let info ← extract_information polarity e
  let response := generate_response e info.sentiment
  .ok ⟨e.sender, e.subject, e.body, e.ageHours, sentiment, pr.1, pr.2,
    category, info, response, "Pending", cnt⟩

/-- Push one processed email (source lines 219-221): heap push of
`(-urgency_score, email_counter, processed_email)`, append to the
processed list, bump the counter. -/
def pushProcessed (st : SysState) (it : PItem) : SysState :=
  ⟨heappush st.queue ⟨-it.urgency, st.counter, it⟩,
   st.processed ++ [it], st.counter + 1⟩

/-- The loop of `process_emails` over the filtered list; an exception in
any iteration propagates out, abandoning the batch. -/
def processLoop (polarity : List Char → ℚ) : SysState → List Email →
    Except PyError SysState
  | st, [] => .ok st
  | st, e :: es => do
    let it ← processOne polarity e st.counter
    processLoop polarity (pushProcessed st it) es

/-- Model of `process_emails` (source lines 193-224): filter, process
each filtered email, return the new state and `len(filtered_emails)`. -/
def process_emails (polarity : List Char → ℚ) (st : SysState)
    (emails : List Email) : Except PyError (SysState × Nat) := do
  let st' ← processLoop polarity st (filter_emails emails)
  .ok (st', (filter_emails emails).length)

/-! ### Specification-side definitions

These follow the spec's wording and are compared against the source
translations above. -/

/-- Spec 4.4 step 2: sentiment adjustment as a function of the label. -/
def sentimentAdj (label : String) : Int :=
  if label = "Negative" then 2
  else if label = "Positive" then -1
  else 0

/-- Spec 4.4 step 3: recency bonus as a function of the email age. -/
def recencyBonus (hoursOld : ℚ) : Int :=
  if hoursOld < 1 then 3
  else if hoursOld < 4 then 2
  else if hoursOld < 12 then 1
  else 0

/-- Spec 4.4 step 1: the base urgency, one per priority keyword found. -/
def baseUrgency (text : List Char) : Int :=
  (priority_keywords.filter (fun k => hasSub k text)).length

/-- Largest category score in a score list. -/
def maxSndVal (l : List (String × Nat)) : Nat :=
  l.foldr (fun p m => max p.2 m) 0

/-- Spec 4.3 tie-break reading: the name of the first category whose
score attains the maximum. -/
def firstMaxName (l : List (String × Nat)) : String :=
  match l.find? (fun p => p.2 = maxSndVal l) with
  | some p => p.1
  | none => ""

/-- The ordering key claimed by the spec for the ordered view:
`(-urgencyScore, sequenceId)` ascending. -/
def claimedKeyLt (a b : HeapEntry) : Bool :=
  a.negScore < b.negScore || (a.negScore = b.negScore && a.counter < b.counter)

/-- Boolean pairwise check over a list. -/
def pairwiseB (p : HeapEntry → HeapEntry → Bool) : List HeapEntry → Bool
  | [] => true
  | x :: xs => xs.all (p x) && pairwiseB p xs

/-- Push a list of urgency scores into an empty queue with sequential
counters, as `process_emails` does for the processed emails. -/
def pushScores (scores : List Int) : List HeapEntry :=
  (scores.foldl (fun (st : List HeapEntry × Nat) s =>
    (heappush st.1 ⟨-s, st.2, dfltItem⟩, st.2 + 1)) ([], 0)).1

example : (orderedView (pushScores [0, 9, 9, 0, 9])).map (fun e => e.counter)
    = [1, 4, 2, 3, 0] := by decide
example : pushScores [0, 9, 9, 0, 9] =
    [⟨-9, 1, dfltItem⟩, ⟨-9, 4, dfltItem⟩, ⟨-9, 2, dfltItem⟩,
     ⟨0, 3, dfltItem⟩, ⟨0, 0, dfltItem⟩] := by decide

/-! ### Lemmas about the stable sort underlying the ordered view -/

theorem insP_perm (x : Nat × Int) (l : List (Nat × Int)) :
    List.Perm (insP x l) (x :: l) := by
  induction l with
  | nil => simp [insP]
  | cons y ys ih =>
    by_cases h : y.2 < x.2
    · simpa [insP, h] using ((ih.cons y).trans (List.Perm.swap x y ys))
    · simp [insP, h]

theorem isortP_perm (l : List (Nat × Int)) : List.Perm (isortP l) l := by
  induction l with
  | nil => simp [isortP]
  | cons x xs ih => exact (insP_perm x (isortP xs)).trans (ih.cons x)

theorem mem_insP {y x : Nat × Int} {l : List (Nat × Int)} :
    y ∈ insP x l ↔ y = x ∨ y ∈ l := by
  rw [(insP_perm x l).mem_iff]
  simp

theorem insP_sorted {x : Nat × Int} {l : List (Nat × Int)}
    (hl : l.Pairwise (fun a b => a.2 ≤ b.2)) :
    (insP x l).Pairwise (fun a b => a.2 ≤ b.2) := by
  induction l with
  | nil => simp [insP]
  | cons y ys ih =>
    rcases List.pairwise_cons.mp hl with ⟨hy, hys⟩
    by_cases h : y.2 < x.2
    · rw [insP, if_pos h]
      refine List.pairwise_cons.mpr ⟨?_, ih hys⟩
      intro z hz
      rcases mem_insP.mp hz with rfl | hz
      · omega
      · exact hy z hz
    · rw [insP, if_neg h]
      refine List.pairwise_cons.mpr ⟨?_, hl⟩
      intro z hz
      rcases List.mem_cons.mp hz with rfl | hz
      · omega
      · have := hy z hz
        omega

theorem isortP_sorted (l : List (Nat × Int)) :
    (isortP l).Pairwise (fun a b => a.2 ≤ b.2) := by
  induction l with
  | nil => simp [isortP]
  | cons x xs ih => exact insP_sorted ih

theorem enumKeys_length (n : Nat) (ks : List Int) :
    (enumKeys n ks).length = ks.length := by
  induction ks generalizing n with
  | nil => rfl
  | cons k ks ih => simp [enumKeys, ih]

theorem enumKeys_mem {p : Nat × Int} {n : Nat} {ks : List Int}
    (hp : p ∈ enumKeys n ks) :
    n ≤ p.1 ∧ p.1 < n + ks.length ∧ ks.getD (p.1 - n) 0 = p.2 := by
  induction ks generalizing n with
  | nil => simp [enumKeys] at hp
  | cons k ks ih =>
    rcases List.mem_cons.mp hp with rfl | hp
    · simp [List.getD]
    · rcases ih hp with ⟨h1, h2, h3⟩
      refine ⟨by omega, ?_, ?_⟩
      · simp only [List.length_cons]
        omega
      · have hd : p.1 - n = (p.1 - (n + 1)) + 1 := by omega
        rw [hd]
        simpa using h3

theorem enumKeys_pairwise (n : Nat) (ks : List Int) :
    (enumKeys n ks).Pairwise (fun a b => a.1 < b.1) := by
  induction ks generalizing n with
  | nil => simp [enumKeys]
  | cons k ks ih =>
    refine List.pairwise_cons.mpr ⟨?_, ih (n + 1)⟩
    intro p hp
    have := (enumKeys_mem hp).1
    simp only []
    omega

theorem orderedPositions_length (q : List HeapEntry) :
    (orderedPositions q).length = q.length := by
  have h1 := (isortP_perm (enumKeys 0 (keyList q))).length_eq
  have h2 := enumKeys_length 0 (keyList q)
  have h3 : (keyList q).length = q.length := by simp [keyList]
  simp only [orderedPositions, List.length_map]
  omega

theorem orderedPositions_nodup (q : List HeapEntry) :
    (orderedPositions q).Nodup := by
  have hperm : List.Perm ((isortP (enumKeys 0 (keyList q))).map Prod.fst)
      ((enumKeys 0 (keyList q)).map Prod.fst) :=
    (isortP_perm (enumKeys 0 (keyList q))).map Prod.fst
  have hnd : ((enumKeys 0 (keyList q)).map Prod.fst).Nodup := by
    have hp : ((enumKeys 0 (keyList q)).map Prod.fst).Pairwise (· < ·) := by
      rw [List.pairwise_map]
      exact enumKeys_pairwise 0 (keyList q)
    exact hp.imp Nat.ne_of_lt
  have heq : (orderedPositions q) = (isortP (enumKeys 0 (keyList q))).map Prod.fst := rfl
  rw [heq]
  exact hperm.nodup_iff.mpr hnd

theorem orderedPositions_mem_lt {q : List HeapEntry} {i : Nat}
    (hi : i ∈ orderedPositions q) : i < q.length := by
  rcases List.mem_map.mp hi with ⟨p, hp, rfl⟩
  have hp2 := (isortP_perm (enumKeys 0 (keyList q))).mem_iff.mp hp
  have h2 := (enumKeys_mem hp2).2.1
  have hl : (keyList q).length = q.length := by simp [keyList]
  omega

theorem getD_map_negScore {q : List HeapEntry} {i : Nat} (hi : i < q.length) :
    (keyList q).getD i 0 = (q.getD i dfltEntry).negScore := by
  induction q generalizing i with
  | nil => simp at hi
  | cons e es ih =>
    cases i with
    | zero => simp [keyList, List.getD]
    | succ j =>
      have hj : j < es.length := by simpa using hi
      simpa [keyList, List.getD] using ih hj

theorem orderedView_pair_key {q : List HeapEntry} {p : Nat × Int}
    (hp : p ∈ isortP (enumKeys 0 (keyList q))) :
    (q.getD p.1 dfltEntry).negScore = p.2 := by
  have hp2 := (isortP_perm (enumKeys 0 (keyList q))).mem_iff.mp hp
  rcases enumKeys_mem hp2 with ⟨-, h2, h3⟩
  have hlt : p.1 < q.length := by
    have hl : (keyList q).length = q.length := by simp [keyList]
    omega
  rw [← getD_map_negScore hlt]
  simpa using h3

theorem orderedView_length (q : List HeapEntry) :
    (orderedView q).length = q.length := by
  simp [orderedView, orderedPositions_length]

/-- The display order is sorted by the heap key (negated urgency)
ascending, i.e. by urgency score descending. -/
theorem orderedView_sorted (q : List HeapEntry) :
    (orderedView q).Pairwise (fun a b => a.negScore ≤ b.negScore) := by
  have hs := isortP_sorted (enumKeys 0 (keyList q))
  have heq : (orderedView q) =
      (isortP (enumKeys 0 (keyList q))).map (fun p => q.getD p.1 dfltEntry) := by
    simp [orderedView, orderedPositions, List.map_map]
  rw [heq, List.pairwise_map]
  refine hs.imp_of_mem ?_
  intro a b ha hb hab
  rw [orderedView_pair_key ha, orderedView_pair_key hb]
  exact hab

/-! ### Mutation of non-key fields and the ordered view -/

/-- Update the shared item of a heap entry (the key components are
untouched). -/
def entryUpd (g : PItem → PItem) (e : HeapEntry) : HeapEntry :=
  { e with item := g e.item }

/-- Key projection of a heap entry: the pair `heapq` actually compares
and the display sort keys on. -/
def entryKey (e : HeapEntry) : Int × Nat :=
  (e.negScore, e.counter)

theorem getD_eq_getElem {α : Type} {l : List α} {n : Nat} {d : α}
    (h : n < l.length) : l.getD n d = l[n] := by
  induction l generalizing n with
  | nil => simp at h
  | cons x xs ih =>
    cases n with
    | zero => simp [List.getD]
    | succ m =>
      have hm : m < xs.length := by simpa using h
      simpa [List.getD] using ih hm

theorem getD_mem_of_lt {α : Type} (l : List α) (n : Nat) (d : α)
    (h : n < l.length) : l.getD n d ∈ l := by
  rw [getD_eq_getElem h]
  exact List.getElem_mem h

theorem getD_map_of_lt {α β : Type} (f : α → β) {l : List α} {i : Nat}
    (d : β) (d0 : α) (h : i < l.length) :
    (l.map f).getD i d = f (l.getD i d0) := by
  induction l generalizing i with
  | nil => simp at h
  | cons x xs ih =>
    cases i with
    | zero => simp [List.getD]
    | succ m =>
      have hm : m < xs.length := by simpa using h
      simpa [List.getD] using ih hm

theorem set_getD_self {α : Type} (l : List α) (n : Nat) (d : α)
    (h : n < l.length) : l.set n (l.getD n d) = l := by
  induction l generalizing n with
  | nil => rfl
  | cons x xs ih =>
    cases n with
    | zero => simp [List.getD]
    | succ m =>
      have hm : m < xs.length := by simpa using h
      simpa [List.getD] using ih m hm

theorem updAt_length (g : PItem → PItem) (n : Nat) (q : List HeapEntry) :
    (updAt g n q).length = q.length := by
  induction q generalizing n with
  | nil => cases n <;> rfl
  | cons e es ih =>
    cases n with
    | zero => simp [updAt]
    | succ m => simp [updAt, ih]

theorem keyList_updAt (g : PItem → PItem) (n : Nat) (q : List HeapEntry) :
    keyList (updAt g n q) = keyList q := by
  induction q generalizing n with
  | nil => cases n <;> rfl
  | cons e es ih =>
    cases n with
    | zero => simp [updAt, keyList]
    | succ m => simpa [updAt, keyList] using ih m

theorem getD_updAt (g : PItem → PItem) (q : List HeapEntry) (n i : Nat)
    (h : i < q.length) :
    (updAt g n q).getD i dfltEntry =
      if i = n then entryUpd g (q.getD i dfltEntry) else q.getD i dfltEntry := by
  induction q generalizing n i with
  | nil => simp at h
  | cons e es ih =>
    cases i with
    | zero =>
      cases n with
      | zero => simp [updAt, List.getD, entryUpd]
      | succ m => simp [updAt, List.getD]
    | succ j =>
      cases n with
      | zero => simp [updAt, List.getD]
      | succ m =>
        have hj : j < es.length := by simpa using h
        simp only [updAt, List.getD_cons_succ]
        rw [ih m j hj]
        by_cases hjm : j = m
        · simp [hjm]
        · have hne : ¬(j + 1 = m + 1) := by omega
          simp [hjm, hne]

theorem orderedPositions_congr {q1 q2 : List HeapEntry}
    (h : keyList q1 = keyList q2) : orderedPositions q1 = orderedPositions q2 := by
  unfold orderedPositions
  rw [h]

/-- Central frame lemma: mutating only the item of one heap entry —
looked up through display rank `idx` — rewrites the ordered view as a
single `set` at position `idx - 1`; everything else, including the
order, is untouched. -/
theorem orderedView_mutateAt (g : PItem → PItem) (q : List HeapEntry)
    (idx : Int) (h1 : 1 ≤ idx) (h2 : idx ≤ (q.length : Int)) :
    orderedView (mutateAt g q idx) =
      (orderedView q).set ((idx - 1).toNat)
        (entryUpd g ((orderedView q).getD ((idx - 1).toNat) dfltEntry)) := by
  have hnr : ¬(idx < 1 ∨ idx > (q.length : Int)) := by omega
  rw [mutateAt, if_neg hnr]
  set j0 := (idx - 1).toNat with hj0def
  set pos := (orderedPositions q).getD j0 0 with hposdef
  have hj0 : j0 < (orderedPositions q).length := by
    rw [orderedPositions_length]
    omega
  have hpos_mem : pos ∈ orderedPositions q := getD_mem_of_lt _ _ _ hj0
  have hpos_lt : pos < q.length := orderedPositions_mem_lt hpos_mem
  have hOP : orderedPositions (updAt g pos q) = orderedPositions q :=
    orderedPositions_congr (keyList_updAt _ _ _)
  have hLHS : orderedView (updAt g pos q)
      = (orderedPositions q).map (fun i => (updAt g pos q).getD i dfltEntry) := by
    unfold orderedView
    rw [hOP]
  have hRHS : orderedView q = (orderedPositions q).map (fun i => q.getD i dfltEntry) := rfl
  rw [hLHS, hRHS]
  apply List.ext_getElem
  · simp [List.length_set]
  · intro n hn1 hn2
    have hnP : n < (orderedPositions q).length := by simpa using hn1
    simp only [List.getElem_map, List.getElem_set]
    have hPn_lt : (orderedPositions q)[n] < q.length :=
      orderedPositions_mem_lt (List.getElem_mem hnP)
    rw [getD_updAt g q pos ((orderedPositions q)[n]) hPn_lt]
    by_cases hn : n = j0
    · have hPn : (orderedPositions q)[n] = pos := by
        rw [hposdef]
        rw [show (orderedPositions q)[n] = (orderedPositions q).getD n 0 from
          (getD_eq_getElem hnP).symm]
        rw [hn]
      rw [if_pos hPn, if_pos hn.symm]
      rw [getD_map_of_lt (fun i => q.getD i dfltEntry) dfltEntry 0 hj0]
      rw [hPn]
    · have hPn : (orderedPositions q)[n] ≠ pos := by
        rw [hposdef, getD_eq_getElem hj0]
        intro hcon
        have hinj := List.nodup_iff_injective_get.mp (orderedPositions_nodup q)
        have heqf : (⟨n, hnP⟩ : Fin (orderedPositions q).length) = ⟨j0, hj0⟩ := by
          apply hinj
          simpa [List.get_eq_getElem] using hcon
        exact hn (by simpa using congrArg Fin.val heqf)
      rw [if_neg hPn, if_neg (fun hc => hn hc.symm)]

/-! ### Permutation facts about `heappush` -/

theorem cons_set_perm (es : List HeapEntry) (k : Nat) (x y : HeapEntry)
    (hk : k < es.length) :
    List.Perm (x :: es.set k y) (y :: es.set k x) := by
  induction es generalizing k with
  | nil => simp at hk
  | cons b bs ih =>
    cases k with
    | zero => simpa using List.Perm.swap y x bs
    | succ m =>
      have hm : m < bs.length := by simpa using hk
      have h1 : List.Perm (x :: b :: bs.set m y) (b :: x :: bs.set m y) :=
        List.Perm.swap b x (bs.set m y)
      have h2 : List.Perm (b :: x :: bs.set m y) (b :: y :: bs.set m x) :=
        (ih m hm).cons b
      have h3 : List.Perm (b :: y :: bs.set m x) (y :: b :: bs.set m x) :=
        List.Perm.swap y b (bs.set m x)
      simpa using (h1.trans h2).trans h3

theorem setset_perm (l : List HeapEntry) (i j : Nat) (a : HeapEntry)
    (hij : i < j) (hj : j < l.length) :
    List.Perm ((l.set j (l.getD i dfltEntry)).set i a) (l.set j a) := by
  induction l generalizing i j with
  | nil => simp at hj
  | cons e es ih =>
    cases j with
    | zero => omega
    | succ m =>
      have hm : m < es.length := by simpa using hj
      cases i with
      | zero =>
        simpa [List.getD] using cons_set_perm es m a e hm
      | succ n =>
        have hnm : n < m := by omega
        simpa [List.getD] using (ih n m hnm hm).cons e

theorem siftdownF_perm (fuel : Nat) (h : List HeapEntry) (pos : Nat)
    (item : HeapEntry) (hf : pos ≤ fuel) (hl : pos < h.length) :
    List.Perm (siftdownF fuel h pos item) (h.set pos item) := by
  induction fuel generalizing h pos with
  | zero =>
    have : pos = 0 := by omega
    subst this
    exact List.Perm.refl _
  | succ fuel ih =>
    cases pos with
    | zero => exact List.Perm.refl _
    | succ p =>
      rw [siftdownF]
      by_cases hcmp : entryLt item (h.getD (p / 2) dfltEntry)
      · rw [if_pos hcmp]
        have hrec := ih (h.set (p + 1) (h.getD (p / 2) dfltEntry)) (p / 2)
          (by omega) (by rw [List.length_set]; omega)
        refine hrec.trans ?_
        exact setset_perm h (p / 2) (p + 1) item (by omega) hl
      · rw [if_neg hcmp]

theorem set_append_last (h : List HeapEntry) (x y : HeapEntry) :
    (h ++ [x]).set h.length y = h ++ [y] := by
  induction h with
  | nil => rfl
  | cons e es ih => simp [ih]

theorem heappush_perm (h : List HeapEntry) (item : HeapEntry) :
    List.Perm (heappush h item) (item :: h) := by
  have hs := siftdownF_perm h.length (h ++ [item]) h.length item (Nat.le_refl _)
    (by simp)
  rw [heappush]
  refine hs.trans ?_
  rw [set_append_last]
  exact List.perm_append_singleton item h

/-! ### Success and failure of `extract_information` -/

theorem alternateEmailsComp_err {es : List (List Char)} (h : es ≠ []) :
    alternateEmailsComp es = .error .typeError := by
  cases es with
  | nil => exact absurd rfl h
  | cons m rest => rfl

/-- The pure value `extract_information` would return when the email
regex finds no match (so the broken comprehension runs zero times). -/
def extractedOf (polarity : List Char → ℚ) (e : Email) : Extracted :=
  ⟨phoneFindAll (combinedText e), [],
   (requirementsLoop (splitTerm (combinedText e))).take 3,
   analyze_sentiment (polarity (combinedText e))⟩

theorem extract_information_err (polarity : List Char → ℚ) (e : Email)
    (h : emailFindAll (combinedText e) ≠ []) :
    extract_information polarity e = .error .typeError := by
  unfold extract_information
  rw [alternateEmailsComp_err h]
  rfl

theorem extract_information_ok (polarity : List Char → ℚ) (e : Email)
    (h : emailFindAll (combinedText e) = []) :
    extract_information polarity e = .ok (extractedOf polarity e) := by
  unfold extract_information
  rw [h]
  rfl

theorem requirementsLoop_eq (ss : List (List Char)) :
    requirementsLoop ss =
      (ss.filter (fun s => requirement_keywords.any (fun k => hasSub k (pyLower s)))).map
        stripWS := by
  induction ss with
  | nil => rfl
  | cons s rest ih =>
    by_cases hs : requirement_keywords.any (fun k => hasSub k (pyLower s)) = true
    · simp [requirementsLoop, hs, List.filter_cons, ih]
    · simp [requirementsLoop, hs, List.filter_cons, ih]

theorem extract_information_requirements {polarity : List Char → ℚ} {e : Email}
    {info : Extracted} (h : extract_information polarity e = .ok info) :
    info.requirements = (requirementsLoop (splitTerm (combinedText e))).take 3 := by
  by_cases hm : emailFindAll (combinedText e) = []
  · rw [extract_information_ok polarity e hm] at h
    cases h
    rfl
  · rw [extract_information_err polarity e hm] at h
    cases h

/-! ### The processing pipeline on extraction-safe batches -/

/-- The processed item `process_emails` builds for one email when
extraction succeeds (no email-address match in the combined text). -/
def itemOf (polarity : List Char → ℚ) (e : Email) (cnt : Nat) : PItem :=
  ⟨e.sender, e.subject, e.body, e.ageHours,
   analyze_sentiment (polarity (combinedText e)),
   (determine_priority polarity e).1, (determine_priority polarity e).2,
   categorize_email e, extractedOf polarity e,
   generate_response e (extractedOf polarity e).sentiment, "Pending", cnt⟩

/-- The processed items of a list of emails, with counters from `c`. -/
def mkItems (polarity : List Char → ℚ) : Nat → List Email → List PItem
  | _, [] => []
  | c, e :: es => itemOf polarity e c :: mkItems polarity (c + 1) es

/-- The heap entries pushed for a list of processed items. -/
def entriesOf (l : List PItem) : List HeapEntry :=
  l.map (fun it => ⟨-it.urgency, it.processingId, it⟩)

theorem processOne_ok (polarity : List Char → ℚ) (e : Email) (cnt : Nat)
    (h : emailFindAll (combinedText e) = []) :
    processOne polarity e cnt = .ok (itemOf polarity e cnt) := by
  unfold processOne
  rw [extract_information_ok polarity e h]
  rfl

theorem mkItems_length (polarity : List Char → ℚ) (c : Nat) (es : List Email) :
    (mkItems polarity c es).length = es.length := by
  induction es generalizing c with
  | nil => rfl
  | cons e es ih => simp [mkItems, ih]

theorem processLoop_ok (polarity : List Char → ℚ) (es : List Email) :
    ∀ st : SysState, (∀ e ∈ es, emailFindAll (combinedText e) = []) →
    ∃ stF : SysState, processLoop polarity st es = .ok stF ∧
      stF.processed = st.processed ++ mkItems polarity st.counter es ∧
      stF.counter = st.counter + es.length ∧
      List.Perm stF.queue (entriesOf (mkItems polarity st.counter es) ++ st.queue) := by
  induction es with
  | nil =>
    intro st _
    exact ⟨st, rfl, by simp [mkItems, entriesOf], by simp, by simp [mkItems, entriesOf]⟩
  | cons e es ih =>
    intro st hall
    have he : emailFindAll (combinedText e) = [] := hall e (List.mem_cons_self e es)
    have hrest : ∀ x ∈ es, emailFindAll (combinedText x) = [] :=
      fun x hx => hall x (List.mem_cons_of_mem e hx)
    rcases ih (pushProcessed st (itemOf polarity e st.counter)) hrest with
      ⟨stF, hloop, hproc, hcnt, hqueue⟩
    refine ⟨stF, ?_, ?_, ?_, ?_⟩
    · show processLoop polarity st (e :: es) = .ok stF
      unfold processLoop
      rw [processOne_ok polarity e st.counter he]
      exact hloop
    · rw [hproc]
      simp [pushProcessed, mkItems]
    · rw [hcnt]
      simp [pushProcessed, mkItems]
      omega
    · refine hqueue.trans ?_
      simp only [pushProcessed]
      have hpush : List.Perm (heappush st.queue ⟨-(itemOf polarity e st.counter).urgency,
          st.counter, itemOf polarity e st.counter⟩)
          (⟨-(itemOf polarity e st.counter).urgency, st.counter,
            itemOf polarity e st.counter⟩ :: st.queue) :=
        heappush_perm _ _
      refine ((List.Perm.append_left _ hpush).trans ?_)
      have hcons : entriesOf (mkItems polarity st.counter (e :: es)) ++ st.queue
          = (⟨-(itemOf polarity e st.counter).urgency, st.counter,
              itemOf polarity e st.counter⟩ : HeapEntry) ::
            (entriesOf (mkItems polarity (st.counter + 1) es) ++ st.queue) := by
        simp [mkItems, entriesOf, itemOf]
      rw [hcons]
      exact List.perm_middle

/-! ### Lemmas about `categorize_email` and Python `max` -/

theorem maxSndVal_cons (p : String × Nat) (l : List (String × Nat)) :
    maxSndVal (p :: l) = max p.2 (maxSndVal l) := rfl

theorem pyMaxSndFrom_find : ∀ (l : List (String × Nat)) (b : String × Nat),
    (b :: l).find? (fun p => p.2 = maxSndVal (b :: l)) = some (pyMaxSndFrom b l) := by
  intro l
  induction l with
  | nil =>
    intro b
    have hb : b.2 = maxSndVal [b] := by
      rw [maxSndVal_cons]
      simp [maxSndVal]
    rw [List.find?_cons_of_pos]
    · simp [pyMaxSndFrom]
    · simp [hb.symm]
  | cons x xs ih =>
    intro b
    by_cases hx : x.2 > b.2
    · have hVx : x.2 ≤ maxSndVal (x :: xs) := by
        rw [maxSndVal_cons]
        omega
      have hV : maxSndVal (b :: x :: xs) = maxSndVal (x :: xs) := by
        rw [maxSndVal_cons]
        omega
      have hpm : pyMaxSndFrom b (x :: xs) = pyMaxSndFrom x xs := by
        simp [pyMaxSndFrom, hx]
      rw [hpm, hV]
      rw [List.find?_cons_of_neg]
      · exact ih x
      · simp
        omega
    · have hV : maxSndVal (b :: x :: xs) = maxSndVal (b :: xs) := by
        rw [maxSndVal_cons, maxSndVal_cons, maxSndVal_cons]
        omega
      have hpm : pyMaxSndFrom b (x :: xs) = pyMaxSndFrom b xs := by
        simp [pyMaxSndFrom, hx]
      rw [hpm, hV]
      have ihb := ih b
      by_cases hb : b.2 = maxSndVal (b :: xs)
      · rw [List.find?_cons_of_pos] at ihb
        · rw [List.find?_cons_of_pos]
          · exact ihb
          · simp [hb]
        · simp [hb]
      · have hbgt : b.2 < maxSndVal (b :: xs) := by
          rw [maxSndVal_cons] at hb ⊢
          omega
        rw [List.find?_cons_of_neg] at ihb
        · rw [List.find?_cons_of_neg, List.find?_cons_of_neg]
          · exact ihb
          · simp
            omega
          · simp
            omega
        · simp
          omega

theorem firstMaxName_cons (s : String × Nat) (ss : List (String × Nat)) :
    firstMaxName (s :: ss) = (pyMaxSndFrom s ss).1 := by
  unfold firstMaxName
  rw [pyMaxSndFrom_find]

theorem pyMaxSndFrom_mem : ∀ (l : List (String × Nat)) (b : String × Nat),
    pyMaxSndFrom b l = b ∨ pyMaxSndFrom b l ∈ l := by
  intro l
  induction l with
  | nil =>
    intro b
    left
    rfl
  | cons x xs ih =>
    intro b
    by_cases hx : x.2 > b.2
    · rcases ih x with h | h
      · right
        rw [pyMaxSndFrom, if_pos hx, h]
        exact List.mem_cons_self x xs
      · right
        rw [pyMaxSndFrom, if_pos hx]
        exact List.mem_cons_of_mem x h
    · rcases ih b with h | h
      · left
        rw [pyMaxSndFrom, if_neg hx, h]
      · right
        rw [pyMaxSndFrom, if_neg hx]
        exact List.mem_cons_of_mem x h

theorem maxSndVal_all_eq {v : Nat} : ∀ {l : List (String × Nat)}, l ≠ [] →
    (∀ p ∈ l, p.2 = v) → maxSndVal l = v := by
  intro l
  induction l with
  | nil => intro h; exact absurd rfl h
  | cons x xs ih =>
    intro _ hall
    rw [maxSndVal_cons, hall x (List.mem_cons_self x xs)]
    cases xs with
    | nil => simp [maxSndVal]
    | cons y ys =>
      rw [ih (by simp) (fun p hp => hall p (List.mem_cons_of_mem x hp))]
      omega

theorem firstMaxName_head {s : String × Nat} {l : List (String × Nat)}
    (h : s.2 = maxSndVal (s :: l)) : firstMaxName (s :: l) = s.1 := by
  unfold firstMaxName
  rw [List.find?_cons_of_pos]
  · simp [h]

theorem pyMaxSnd_eq_firstMaxName (l : List (String × Nat)) :
    pyMaxSnd l = firstMaxName l := by
  cases l with
  | nil => rfl
  | cons s ss => rw [pyMaxSnd, firstMaxName_cons]

theorem pyMaxSnd_mem_names : ∀ (l : List (String × Nat)), l ≠ [] →
    pyMaxSnd l ∈ l.map Prod.fst := by
  intro l hl
  cases l with
  | nil => exact absurd rfl hl
  | cons s ss =>
    rw [pyMaxSnd]
    rcases pyMaxSndFrom_mem ss s with h | h
    · rw [h]
      exact List.mem_map_of_mem Prod.fst (List.mem_cons_self s ss)
    · exact List.mem_map_of_mem Prod.fst (List.mem_cons_of_mem s h)

theorem categorize_email_mem (e : Email) :
    categorize_email e = "account_issues" ∨ categorize_email e = "billing" ∨
    categorize_email e = "technical" ∨ categorize_email e = "general" := by
  have hne : categoryScores (pyLower (combinedText e)) ≠ [] := by
    simp [categoryScores, categoriesKW]
  have h := pyMaxSnd_mem_names _ hne
  have hmap : (categoryScores (pyLower (combinedText e))).map Prod.fst =
      ["account_issues", "billing", "technical", "general"] := rfl
  rw [hmap] at h
  unfold categorize_email
  simpa using h

theorem firstMaxName_all_eq {l : List (String × Nat)} {v : Nat} (hne : l ≠ [])
    (hall : ∀ p ∈ l, p.2 = v) : firstMaxName l = (l.headD ("", 0)).1 := by
  cases l with
  | nil => exact absurd rfl hne
  | cons s ss =>
    have hs : s.2 = maxSndVal (s :: ss) := by
      rw [maxSndVal_all_eq (by simp) hall, hall s (List.mem_cons_self s ss)]
    simpa using firstMaxName_head hs

/-! ### Claim theorems -/

/-- C4: `determine_priority` returns an urgency score equal to the count
of priority keywords present in the lowercased subject+body, plus the
sentiment adjustment (+2 Negative, -1 Positive, 0 Neutral), plus the
recency bonus (+3 under 1 hour, +2 under 4, +1 under 12, else 0), and
the label is `Urgent` exactly when the score is at least 3. -/
theorem c4_determine_priority_score (polarity : List Char → ℚ) (e : Email) :
    (determine_priority polarity e).2 =
      baseUrgency (pyLower (combinedText e)) +
        sentimentAdj (analyze_sentiment (polarity (pyLower (combinedText e)))) +
        recencyBonus e.ageHours ∧
    ((determine_priority polarity e).1 = "Urgent" ↔
      3 ≤ (determine_priority polarity e).2) := by
  unfold determine_priority baseUrgency sentimentAdj recencyBonus
  simp only []
  constructor
  · split_ifs <;> omega
  · split_ifs <;> simp_all

/-- C5: `categorize_email` returns the earliest-enumerated category among
those attaining the maximal keyword score, and when all four scores tie
(in particular the all-zero case) it returns `account_issues`, the first
category in the fixed enumeration order. -/
theorem c5_categorize_tiebreak_first (e : Email) :
    categorize_email e = firstMaxName (categoryScores (pyLower (combinedText e))) ∧
    ∀ v : Nat, (∀ p ∈ categoryScores (pyLower (combinedText e)), p.2 = v) →
      categorize_email e = "account_issues" := by
  have h1 : categorize_email e =
      firstMaxName (categoryScores (pyLower (combinedText e))) :=
    pyMaxSnd_eq_firstMaxName _
  refine ⟨h1, ?_⟩
  intro v hall
  have hne : categoryScores (pyLower (combinedText e)) ≠ [] := by
    simp [categoryScores, categoriesKW]
  rw [h1, firstMaxName_all_eq hne hall]
  rfl

/-- Witness for C5 at a concrete email with no category keyword at all:
every category score is 0 and the result is `account_issues`. -/
theorem c5_categorize_tiebreak_first_witness :
    (∀ p ∈ categoryScores
        (pyLower (combinedText ⟨[], "zz".toList, "zz".toList, 0⟩)), p.2 = 0) ∧
    categorize_email ⟨[], "zz".toList, "zz".toList, 0⟩ = "account_issues" :=
  ⟨by decide,
   (c5_categorize_tiebreak_first ⟨[], "zz".toList, "zz".toList, 0⟩).2 0 (by decide)⟩

/-- C6: whenever `extract_information` returns, the requirements list has
at most 3 entries, equals the first three trimmed sentences (in original
order) of the `[.!?]` split that contain a requirement keyword, and each
entry is the trim of such a sentence. -/
theorem c6_requirements_shape (polarity : List Char → ℚ) (e : Email)
    (info : Extracted) (h : extract_information polarity e = .ok info) :
    info.requirements.length ≤ 3 ∧
    info.requirements =
      (((splitTerm (combinedText e)).filter
        (fun s => requirement_keywords.any (fun k => hasSub k (pyLower s)))).map
          stripWS).take 3 ∧
    ∀ r ∈ info.requirements, ∃ s, s ∈ splitTerm (combinedText e) ∧
      requirement_keywords.any (fun k => hasSub k (pyLower s)) = true ∧
      r = stripWS s := by
  have heq : info.requirements =
      (((splitTerm (combinedText e)).filter
        (fun s => requirement_keywords.any (fun k => hasSub k (pyLower s)))).map
          stripWS).take 3 := by
    rw [extract_information_requirements h, requirementsLoop_eq]
  refine ⟨?_, heq, ?_⟩
  · rw [heq, List.length_take]
    exact Nat.min_le_left _ _
  · intro r hr
    rw [heq] at hr
    have hr2 := List.mem_of_mem_take hr
    rcases List.mem_map.mp hr2 with ⟨s, hs, rfl⟩
    rcases List.mem_filter.mp hs with ⟨hs1, hs2⟩
    exact ⟨s, hs1, hs2, rfl⟩

/-- Witness for C6: a concrete email whose text has no address match, one
requirement sentence, and a successful extraction. -/
theorem c6_requirements_shape_witness :
    extract_information (fun _ => 0)
      ⟨"s@x.co".toList, "I need help with login".toList,
       "We want information".toList, 0⟩ =
      .ok ⟨[], [], ["I need help with login We want information".toList], "Neutral"⟩ ∧
    (⟨[], [], ["I need help with login We want information".toList],
      "Neutral"⟩ : Extracted).requirements.length ≤ 3 :=
  ⟨by rfl,
   (c6_requirements_shape (fun _ => 0)
     ⟨"s@x.co".toList, "I need help with login".toList,
      "We want information".toList, 0⟩
     ⟨[], [], ["I need help with login We want information".toList], "Neutral"⟩
     (by rfl)).1⟩

set_option maxRecDepth 8000

/-- C1 (code bug witness): at a concrete email whose body contains the
sender's own address, the regex finds exactly that address, yet
`extract_information` raises `TypeError` — the comprehension variable at
source line 132 shadows the email dict, so the intended
exclude-the-sender filter never runs and no result is returned. -/
theorem c1_sender_exclusion_type_error :
    emailFindAll (combinedText ⟨"me@my.co".toList, "Help needed".toList,
      "you can also reach me at me@my.co".toList, 0⟩) = ["me@my.co".toList] ∧
    extract_information (fun _ => 0) ⟨"me@my.co".toList, "Help needed".toList,
      "you can also reach me at me@my.co".toList, 0⟩ = .error .typeError := by
  constructor
  · decide
  · exact extract_information_err _ _ (by decide)

/-- C9: whenever the combined subject+body has at least one
email-address match, `extract_information` raises `TypeError` (the
sender-exclusion comparison indexes the matched string with the key
`sender`); with no match it is total and returns the extracted
signals with an empty alternate-email list. -/
theorem c9_extract_totality_boundary (polarity : List Char → ℚ) (e : Email) :
    (emailFindAll (combinedText e) ≠ [] →
      extract_information polarity e = .error .typeError) ∧
    (emailFindAll (combinedText e) = [] →
      extract_information polarity e = .ok (extractedOf polarity e)) :=
  ⟨extract_information_err polarity e, extract_information_ok polarity e⟩

/-- Witness for C9: one concrete email with an address match that makes
extraction raise, and one without a match on which extraction returns. -/
theorem c9_extract_totality_boundary_witness :
    (emailFindAll (combinedText ⟨"me@my.co".toList, "help".toList,
        "write to a@bc.de now".toList, 0⟩) ≠ [] ∧
      extract_information (fun _ => 0) ⟨"me@my.co".toList, "help".toList,
        "write to a@bc.de now".toList, 0⟩ = .error .typeError) ∧
    (emailFindAll (combinedText ⟨"x".toList, "help".toList,
        "no address here".toList, 0⟩) = [] ∧
      extract_information (fun _ => 0) ⟨"x".toList, "help".toList,
        "no address here".toList, 0⟩ =
        .ok (extractedOf (fun _ => 0) ⟨"x".toList, "help".toList,
          "no address here".toList, 0⟩)) :=
  ⟨⟨by decide, (c9_extract_totality_boundary (fun _ => 0)
      ⟨"me@my.co".toList, "help".toList, "write to a@bc.de now".toList, 0⟩).1
      (by decide)⟩,
   ⟨by decide, (c9_extract_totality_boundary (fun _ => 0)
      ⟨"x".toList, "help".toList, "no address here".toList, 0⟩).2
      (by decide)⟩⟩

/-- C8: the category returned by `categorize_email` is always one of the
four taxonomy names, which is never a knowledge-base key, so every
response built by `generate_response` contains the generic fallback
sentence and no knowledge-base entry. -/
theorem c8_response_always_fallback (e : Email) (s : String) :
    (categorize_email e = "account_issues" ∨ categorize_email e = "billing" ∨
     categorize_email e = "technical" ∨ categorize_email e = "general") ∧
    dictGet knowledge_base (categorize_email e) = none ∧
    hasSub fallbackKnowledge (generate_response e s) = true ∧
    knowledge_base.all (fun p => !(hasSub p.2 (generate_response e s))) = true := by
  have hmem := categorize_email_mem e
  refine ⟨hmem, ?_, ?_, ?_⟩
  · rcases hmem with hc | hc | hc | hc <;> rw [hc] <;> decide
  · unfold generate_response
    simp only []
    rcases hmem with hc | hc | hc | hc <;> rw [hc] <;>
      (by_cases hs1 : s = "Negative"
       case pos => simp only [if_pos hs1]; decide
       case neg =>
        by_cases hs2 : s = "Positive"
        case pos => simp only [if_neg hs1, if_pos hs2]; decide
        case neg => simp only [if_neg hs1, if_neg hs2]; decide)
  · unfold generate_response
    simp only []
    rcases hmem with hc | hc | hc | hc <;> rw [hc] <;>
      (by_cases hs1 : s = "Negative"
       case pos => simp only [if_pos hs1]; decide
       case neg =>
        by_cases hs2 : s = "Positive"
        case pos => simp only [if_neg hs1, if_pos hs2]; decide
        case neg => simp only [if_neg hs1, if_neg hs2]; decide)

theorem map_entryKey_set (l : List HeapEntry) (n : Nat) (g : PItem → PItem)
    (hn : n < l.length) :
    (l.set n (entryUpd g (l.getD n dfltEntry))).map entryKey = l.map entryKey := by
  apply List.ext_getElem
  · simp
  · intro m hm1 hm2
    simp only [List.getElem_map, List.getElem_set]
    by_cases hmn : n = m
    · subst hmn
      rw [if_pos rfl, getD_eq_getElem hn]
      rfl
    · rw [if_neg hmn]

/-- C2 counterexample: pushing urgency scores 0, 9, 9, 0, 9 and reading
the view back yields sequence ids 1, 4, 2, 3, 0 — sorted by score
descending, but equal-score items are NOT in insertion order (4 before 2,
and 3 before 0), so the effective key is not
`(-urgencyScore, sequenceId)` ascending. -/
theorem c2_insertion_order_counterexample :
    pairwiseB claimedKeyLt (orderedView (pushScores [0, 9, 9, 0, 9])) = false ∧
    (orderedView (pushScores [0, 9, 9, 0, 9])).map (fun e => e.counter) =
      [1, 4, 2, 3, 0] := by
  decide

/-- C2 (amended): for every sequence of inserted scores the ordered view
is sorted by `negScore` (the negated urgency score) ascending — i.e. by
urgency score descending — for all pairs; items with equal score appear
in the order they occupy the internal heap array, which the
counterexample shows need not be insertion order. -/
theorem c2_amended_sorted_descending (scores : List Int) :
    (orderedView (pushScores scores)).Pairwise
      (fun a b => a.negScore ≤ b.negScore) :=
  orderedView_sorted _

/-- C3: in-range `markResolved` and (with a non-empty stripped reply)
`editResponse` rewrite the ordered view as a single in-place update of
the entry at that display rank — only the `status` / `response` field of
that one item changes — and the sequence of ordering keys
`(negScore, counter)` of the view is exactly the same as before. -/
theorem c3_mutation_preserves_order (q : List HeapEntry) (idx : Int)
    (r : List Char) (h1 : 1 ≤ idx) (h2 : idx ≤ (q.length : Int)) :
    (orderedView (markResolved q idx) =
      (orderedView q).set ((idx - 1).toNat)
        (entryUpd (fun it => { it with status := "Resolved" })
          ((orderedView q).getD ((idx - 1).toNat) dfltEntry)) ∧
     (orderedView (markResolved q idx)).map entryKey =
       (orderedView q).map entryKey) ∧
    (stripWS r ≠ [] →
      orderedView (editResponse q idx r) =
        (orderedView q).set ((idx - 1).toNat)
          (entryUpd (fun it => { it with response := stripWS r })
            ((orderedView q).getD ((idx - 1).toNat) dfltEntry)) ∧
      (orderedView (editResponse q idx r)).map entryKey =
        (orderedView q).map entryKey) := by
  have hn : (idx - 1).toNat < (orderedView q).length := by
    rw [orderedView_length]
    omega
  constructor
  · have hset : orderedView (markResolved q idx) =
        (orderedView q).set ((idx - 1).toNat)
          (entryUpd (fun it => { it with status := "Resolved" })
            ((orderedView q).getD ((idx - 1).toNat) dfltEntry)) :=
      orderedView_mutateAt (fun it => { it with status := "Resolved" }) q idx h1 h2
    exact ⟨hset, by rw [hset]; exact map_entryKey_set _ _ _ hn⟩
  · intro hr
    have hed : editResponse q idx r =
        mutateAt (fun it => { it with response := stripWS r }) q idx := by
      rw [editResponse, if_neg hr]
    have hset : orderedView (editResponse q idx r) =
        (orderedView q).set ((idx - 1).toNat)
          (entryUpd (fun it => { it with response := stripWS r })
            ((orderedView q).getD ((idx - 1).toNat) dfltEntry)) := by
      rw [hed]
      exact orderedView_mutateAt _ q idx h1 h2
    exact ⟨hset, by rw [hset]; exact map_entryKey_set _ _ _ hn⟩

/-- Witness for C3 on a concrete three-element queue at rank 2. -/
theorem c3_mutation_preserves_order_witness :
    orderedView (markResolved (pushScores [1, 3, 2]) 2) =
      (orderedView (pushScores [1, 3, 2])).set (((2 : Int) - 1).toNat)
        (entryUpd (fun it => { it with status := "Resolved" })
          ((orderedView (pushScores [1, 3, 2])).getD
            (((2 : Int) - 1).toNat) dfltEntry)) :=
  ((c3_mutation_preserves_order (pushScores [1, 3, 2]) 2 []
    (by decide) (by decide)).1).1

/-- C7: with a rank outside `[1, size]` the detail lookup fails with
`OutOfRange` and neither mutation touches the queue; with a rank inside
the interval it returns the entry at that 1-indexed position of the
ordered view. -/
theorem c7_item_at_range (q : List HeapEntry) (index : Int) (r : List Char) :
    ((index < 1 ∨ index > (q.length : Int)) →
      itemAt q index = .error .outOfRange ∧
      markResolved q index = q ∧ editResponse q index r = q) ∧
    (1 ≤ index → index ≤ (q.length : Int) →
      itemAt q index =
        .ok ((orderedView q).getD ((index - 1).toNat) dfltEntry)) := by
  constructor
  · intro hor
    refine ⟨?_, ?_, ?_⟩
    · rw [itemAt, if_pos hor]
    · unfold markResolved mutateAt
      rw [if_pos hor]
    · unfold editResponse
      by_cases hr : stripWS r = []
      · rw [if_pos hr]
      · rw [if_neg hr]
        unfold mutateAt
        rw [if_pos hor]
  · intro h1 h2
    rw [itemAt, if_neg (by omega)]

/-- Witness for C7: rank 0 is rejected without mutation and rank 1 is
served, on a concrete two-element queue. -/
theorem c7_item_at_range_witness :
    (itemAt (pushScores [2, 7]) 0 = .error .outOfRange ∧
     markResolved (pushScores [2, 7]) 0 = pushScores [2, 7] ∧
     editResponse (pushScores [2, 7]) 0 ("x".toList) = pushScores [2, 7]) ∧
    itemAt (pushScores [2, 7]) 1 =
      .ok ((orderedView (pushScores [2, 7])).getD
        (((1 : Int) - 1).toNat) dfltEntry) :=
  ⟨(c7_item_at_range (pushScores [2, 7]) 0 ("x".toList)).1 (by decide),
   (c7_item_at_range (pushScores [2, 7]) 1 ("x".toList)).2
     (by decide) (by decide)⟩

/-- C10 counterexample: a batch whose single email passes the support
filter but contains an email address: `process_emails` raises
`TypeError`, returning no count and completing no insertion, although
the claimed count would be 1. -/
theorem c10_process_counterexample :
    (filter_emails [⟨"me@my.co".toList, "need help".toList,
        "contact a@bc.de".toList, 0⟩]).length = 1 ∧
    process_emails (fun _ => 0) initState
      [⟨"me@my.co".toList, "need help".toList, "contact a@bc.de".toList, 0⟩] =
      .error .typeError := by
  constructor
  · decide
  · rfl

/-- C10 (amended): on every batch in which no support-filtered email's
combined text contains an email-address match, `process_emails` returns
the count of emails whose lowercased subject or body contains a support
keyword, appends exactly those emails (in order, with sequential
counters) to the processed list, and the queue holds exactly their heap
entries; every other email is excluded from all three. -/
theorem c10_amended_filter_count (polarity : List Char → ℚ)
    (emails : List Email)
    (h : ∀ e ∈ filter_emails emails, emailFindAll (combinedText e) = []) :
    ∃ st : SysState,
      process_emails polarity initState emails =
        .ok (st, (filter_emails emails).length) ∧
      st.processed = mkItems polarity 0 (filter_emails emails) ∧
      st.counter = (filter_emails emails).length ∧
      List.Perm st.queue (entriesOf (mkItems polarity 0 (filter_emails emails))) := by
  rcases processLoop_ok polarity (filter_emails emails) initState h with
    ⟨stF, hloop, hproc, hcnt, hqueue⟩
  refine ⟨stF, ?_, ?_, ?_, ?_⟩
  · unfold process_emails
    rw [hloop]
    rfl
  · simpa [initState] using hproc
  · simpa [initState] using hcnt
  · simpa [initState] using hqueue

/-- Witness for C10 on a concrete two-email batch: one support email
without addresses (processed) and one non-support email (excluded). -/
theorem c10_amended_filter_count_witness :
    ∃ st : SysState,
      process_emails (fun _ => 0) initState
        [⟨"a".toList, "need help".toList, "hello there".toList, 0⟩,
         ⟨"b".toList, "greetings".toList, "nothing relevant".toList, 0⟩] =
        .ok (st, (filter_emails
          [⟨"a".toList, "need help".toList, "hello there".toList, 0⟩,
           ⟨"b".toList, "greetings".toList, "nothing relevant".toList, 0⟩]).length) ∧
      st.processed = mkItems (fun _ => 0) 0 (filter_emails
        [⟨"a".toList, "need help".toList, "hello there".toList, 0⟩,
         ⟨"b".toList, "greetings".toList, "nothing relevant".toList, 0⟩]) ∧
      st.counter = (filter_emails
        [⟨"a".toList, "need help".toList, "hello there".toList, 0⟩,
         ⟨"b".toList, "greetings".toList, "nothing relevant".toList, 0⟩]).length ∧
      List.Perm st.queue (entriesOf (mkItems (fun _ => 0) 0 (filter_emails
        [⟨"a".toList, "need help".toList, "hello there".toList, 0⟩,
         ⟨"b".toList, "greetings".toList, "nothing relevant".toList, 0⟩]))) :=
  c10_amended_filter_count (fun _ => 0)
    [⟨"a".toList, "need help".toList, "hello there".toList, 0⟩,
     ⟨"b".toList, "greetings".toList, "nothing relevant".toList, 0⟩]
    (by decide)

/-- Witness for C4 at a concrete urgent email (two priority keywords,
Neutral sentiment, fresh timestamp). -/
theorem c4_determine_priority_score_witness :
    (determine_priority (fun _ => 0)
      ⟨[], "urgent problem".toList, "system is down".toList, 0⟩).2 =
      baseUrgency (pyLower (combinedText
        ⟨[], "urgent problem".toList, "system is down".toList, 0⟩)) +
        sentimentAdj (analyze_sentiment ((fun _ => (0 : ℚ))
          (pyLower (combinedText
            ⟨[], "urgent problem".toList, "system is down".toList, 0⟩)))) +
        recencyBonus (0 : ℚ) ∧
    ((determine_priority (fun _ => 0)
      ⟨[], "urgent problem".toList, "system is down".toList, 0⟩).1 = "Urgent" ↔
      3 ≤ (determine_priority (fun _ => 0)
        ⟨[], "urgent problem".toList, "system is down".toList, 0⟩).2) :=
  c4_determine_priority_score (fun _ => 0)
    ⟨[], "urgent problem".toList, "system is down".toList, 0⟩
